import Mathlib

/-!
Shallow embedding of the core scoring/ranking engine of the
AI-Powered-Place-Recommendation-System repository
(`src/core_logic/scoring.py`, `src/core_logic/ranking.py`,
`src/nlp_models/sentiment_analyzer.py`), together with proofs of the
specification's claims about it.

Python float data (preference weights, scorer outputs, sentiment scores,
budget arithmetic) is modelled over ℚ, which keeps those functions
executable; the haversine distance and the decimal rounding at the output
boundary live over ℝ because the code uses transcendental functions there.
Python dicts carrying string-keyed numeric data are modelled as
association lists (`List (String × ℚ)`), looked up by first match, which
agrees with dict semantics on duplicate-free key sets.  The two neural
collaborators (the sentence-embedding attribute scorer and the two
sentiment pipelines) are modelled as opaque function parameters, exactly
as the engine consumes them.
-/

namespace PlaceRec

/-- A review record: a dict with an optional `text` entry (absent key and
`None` both modelled as `none`) and an optional `sentiment_score` entry. -/
structure Review where
  text : Option String
  sentiment_score : Option ℚ
deriving DecidableEq

/-- The score breakdown dict returned by `calculate_final_score`. -/
structure ScoreDetails where
  final_score : ℝ
  sentiment_score : ℝ
  preference_score : ℝ
  proximity_score : ℝ
  budget_score : ℝ

/-- The user record consumed by the engine: `preferences`, `budget`, `coords`. -/
structure UserData where
  preferences : List (String × ℚ)
  budget : ℤ
  coords : ℝ × ℝ

/-- A place record: descriptive fields (`name`, `reviews`, `budget`, `coords`,
arbitrary further descriptive fields as `extra`), plus the optional
`scoring_details` entry attached by the engine. -/
structure Place where
  name : String
  reviews : List Review
  budget : ℤ
  coords : ℝ × ℝ
  extra : List (String × String)
  scoring_details : Option ScoreDetails

/-- First-match lookup with numeric default 0, the model of
`d.get(key, 0.0)` on a Python dict. -/
def lookupD (l : List (String × ℚ)) (k : String) : ℚ :=
  match l.find? (fun p => p.1 = k) with
  | some p => p.2
  | none => 0

/-! ## `src/core_logic/scoring.py` -/

/-- Python's `not s.strip()`: the string has no non-whitespace character.
(`s.strip()` is empty exactly when every character of `s` is whitespace.) -/
def isBlank (s : String) : Bool :=
  s.data.all (fun c => c.isWhitespace)

/-- The filter `if review_text and review_text.strip():` applied to
`review_text = review.get('text', '')`: an absent or `None` text gives `''`,
and the review is processed only when the text is non-empty and not
whitespace-only. -/
def hasContent (r : Review) : Bool :=
  match r.text with
  | none => false
  | some t => ¬(t = "") ∧ ¬(isBlank t = true)

/-- The text actually passed to the attribute scorer, `review.get('text', '')`. -/
def reviewText (r : Review) : String := r.text.getD ""

/-- The contribution of one scorer output dict to `attribute_sums[attr]`:
the loop `for attr, score in scores.items(): attribute_sums[attr] += score`
adds, for a fixed attribute, every value listed under that key. -/
def sumForKey (scores : List (String × ℚ)) (attr : String) : ℚ :=
  ((scores.filter (fun p => p.1 = attr)).map (fun p => p.2)).sum

/-- Value of `attribute_sums[attr]` after the aggregation loop: the sum over the
content-bearing reviews of the scorer's value for `attr`. -/
def attributeSum (emb : String → List (String × ℚ)) (included : List Review)
    (attr : String) : ℚ :=
  (included.map (fun r => sumForKey (emb (reviewText r)) attr)).sum

/-- Function `calculate_place_attribute_profile` from `src/core_logic/scoring.py`.
`emb` is the collaborator method `get_review_attribute_scores`. -/
def calculate_place_attribute_profile (place_reviews : List Review)
    (emb : String → List (String × ℚ)) (predefined_attributes : List String) :
    List (String × ℚ) :=
  if place_reviews.isEmpty then
    predefined_attributes.map (fun attr => (attr, 0))
  else
    let included := place_reviews.filter (fun r => hasContent r)
    if included.length > 0 then
      predefined_attributes.map
        (fun attr => (attr, attributeSum emb included attr / included.length))
    else
      predefined_attributes.map (fun attr => (attr, 0))

/-- Model of `sum(user_preferences.values())`. -/
def sumWeights (prefs : List (String × ℚ)) : ℚ :=
  (prefs.map (fun p => p.2)).sum

/-- Function `calculate_preference_score` from `src/core_logic/scoring.py`. -/
def calculate_preference_score (user_preferences : List (String × ℚ))
    (place_attribute_profile : List (String × ℚ))
    (predefined_attributes : List String) : ℚ :=
  let total_user_weight := sumWeights user_preferences
  if total_user_weight > 0 then
    let normalized := user_preferences.map (fun p => (p.1, p.2 / total_user_weight))
    (predefined_attributes.map
      (fun attr => lookupD normalized attr * lookupD place_attribute_profile attr)).sum
  else
    0

/-! ## `src/nlp_models/sentiment_analyzer.py` -/

/-- The character-count state of the loop in `_detect_language_by_character`:
`(arabic_chars, english_chars)` after scanning the given characters. -/
def langCounts : List Char → ℕ × ℕ
  | [] => (0, 0)
  | c :: cs =>
    let rest := langCounts cs
    if '؀' ≤ c ∧ c ≤ 'ۿ' then (rest.1 + 1, rest.2)
    else if 'a' ≤ c.toLower ∧ c.toLower ≤ 'z' then (rest.1, rest.2 + 1)
    else rest

/-- Function `_detect_language_by_character` from `src/nlp_models/sentiment_analyzer.py`
(on string input; the non-string guard cannot arise in the typed model). -/
def detect_language_by_character (text : String) : String :=
  let counts := langCounts text.toList
  if counts.1 > counts.2 then "ar"
  else if counts.2 > counts.1 then "en"
  else "unknown"

/-- The `SentimentAnalyzer` state after `__init__`: either both pipelines
loaded (`some classify`, where `classify lang text` is the label
`pipelines[lang](text)[0]['label']`), or the load failed and
`self.pipelines = {}` (`none`).  The languages with a pipeline are exactly
`"en"` and `"ar"` whenever the load succeeded. -/
structure SentimentAnalyzer where
  models : Option (String → String → String)

/-- The per-review branch of `analyze_reviews` when the pipelines are
loaded: blank text gets 0.5, a detected language gets 1 for `LABEL_1` and
0 otherwise, an unknown language gets 0.5. -/
def analyzeReview (classify : String → String → String) (r : Review) : Review :=
  match r.text with
  | none => { r with sentiment_score := some (1/2) }
  | some t =>
    if t = "" ∨ isBlank t then
      { r with sentiment_score := some (1/2) }
    else
      let lang := detect_language_by_character t
      if lang = "en" ∨ lang = "ar" then
        let s : ℚ := if classify lang t = "LABEL_1" then 1 else 0
        { r with sentiment_score := some s }
      else
        { r with sentiment_score := some (1/2) }

/-- Method `SentimentAnalyzer.analyze_reviews`: with no pipelines every score
defaults to 0, otherwise each review is scored by `analyzeReview`. -/
def SentimentAnalyzer.analyze_reviews (sa : SentimentAnalyzer)
    (reviews : List Review) : List Review :=
  match sa.models with
  | none => reviews.map (fun r => { r with sentiment_score := some 0 })
  | some classify => reviews.map (analyzeReview classify)

/-! ## `src/core_logic/ranking.py` -/

/-- Model of `math.radians`. -/
noncomputable def radians (x : ℝ) : ℝ := x * Real.pi / 180

/-- Model of `math.atan2 y x`, by the usual case split on the quadrant. -/
noncomputable def atan2 (y x : ℝ) : ℝ :=
  if 0 < x then Real.arctan (y / x)
  else if x < 0 then
    (if 0 ≤ y then Real.arctan (y / x) + Real.pi else Real.arctan (y / x) - Real.pi)
  else
    (if 0 < y then Real.pi / 2 else if y < 0 then -(Real.pi / 2) else 0)

/-- The haversine great-circle distance computed inside
`_calculate_proximity_score`, with Earth radius `R = 6371` km. -/
noncomputable def haversineDistance (user_coords place_coords : ℝ × ℝ) : ℝ :=
  let R : ℝ := 6371
  let lat1 := radians user_coords.1
  let lon1 := radians user_coords.2
  let lat2 := radians place_coords.1
  let lon2 := radians place_coords.2
  let dlon := lon2 - lon1
  let dlat := lat2 - lat1
  let a := Real.sin (dlat / 2) ^ 2 +
    Real.cos lat1 * Real.cos lat2 * Real.sin (dlon / 2) ^ 2
  let c := 2 * atan2 (Real.sqrt a) (Real.sqrt (1 - a))
  R * c

/-- Function `_calculate_proximity_score` from `src/core_logic/ranking.py` (the
source name carries a leading underscore).  The source declares the
default `max_distance_km = 10`; the model takes the argument explicitly
and callers that rely on the default pass 10. -/
noncomputable def calculate_proximity_score (user_coords place_coords : ℝ × ℝ)
    (max_distance_km : ℤ) : ℝ :=
  let distance := haversineDistance user_coords place_coords
  if distance > (max_distance_km : ℝ) then 0
  else 1 - distance / (max_distance_km : ℝ)

/-- Function `_calculate_budget_score` from `src/core_logic/ranking.py`. -/
def calculate_budget_score (user_budget place_budget : ℤ) : ℚ :=
  1 - ((|user_budget - place_budget| : ℤ) : ℚ) / 3

/-- Function `_calculate_aggregated_sentiment` from `src/core_logic/ranking.py`:
0.5 for an empty list, otherwise the mean of
`review.get('sentiment_score', 0.5)`. -/
def calculate_aggregated_sentiment (reviews_with_sentiment : List Review) : ℚ :=
  if reviews_with_sentiment.isEmpty then 1/2
  else
    (reviews_with_sentiment.map (fun r => r.sentiment_score.getD (1/2))).sum /
      reviews_with_sentiment.length

/-- Python's `round` to an integer: round half to even. -/
noncomputable def roundHalfEven (y : ℝ) : ℤ :=
  let n := ⌊y⌋
  if y - n < 1/2 then n
  else if 1/2 < y - n then n + 1
  else if Even n then n else n + 1

/-- Python's `round(x, 4)`: round to 4 decimal places, half to even. -/
noncomputable def round4 (x : ℝ) : ℝ := (roundHalfEven (x * 10000) : ℝ) / 10000

/-- Function `calculate_final_score` from `src/core_logic/ranking.py`: the four
component scores, the fixed-weight combination, and the rounding of all
five values at the return statement. -/
noncomputable def calculate_final_score (place_data : Place) (user_data : UserData)
    (emb : String → List (String × ℚ)) (sentiment_analyzer : SentimentAnalyzer)
    (predefined_attributes : List String) : ScoreDetails :=
  let reviews_with_sentiment := sentiment_analyzer.analyze_reviews place_data.reviews
  let sentiment_score : ℚ := calculate_aggregated_sentiment reviews_with_sentiment
  let place_profile :=
    calculate_place_attribute_profile place_data.reviews emb predefined_attributes
  let preference_score : ℚ :=
    calculate_preference_score user_data.preferences place_profile predefined_attributes
  let proximity_score : ℝ :=
    calculate_proximity_score user_data.coords place_data.coords 10
  let budget_score : ℚ := calculate_budget_score user_data.budget place_data.budget
  let final_score : ℝ :=
    (sentiment_score : ℝ) * 0.25 + (preference_score : ℝ) * 0.30 +
      proximity_score * 0.30 + (budget_score : ℝ) * 0.15
  { final_score := round4 final_score
    sentiment_score := round4 (sentiment_score : ℝ)
    preference_score := round4 (preference_score : ℝ)
    proximity_score := round4 proximity_score
    budget_score := round4 (budget_score : ℝ) }

/-- The `ScoreCombiner` contract as the specification words it:
`final_score = 0.25·sentiment + 0.30·preference + 0.30·proximity +
0.15·budget`, each of the five values rounded to 4 decimal places once,
at the output boundary, the final score from the unrounded components. -/
noncomputable def combine_spec (sentiment preference proximity budget : ℝ) :
    ScoreDetails :=
  { final_score :=
      round4 (0.25 * sentiment + 0.30 * preference + 0.30 * proximity + 0.15 * budget)
    sentiment_score := round4 sentiment
    preference_score := round4 preference
    proximity_score := round4 proximity
    budget_score := round4 budget }

/-- One step of the stable descending insertion at the heart of
`sorted(..., key=..., reverse=True)`: the element being inserted came
earlier in the input than everything already placed, so among equal keys
it goes first. -/
noncomputable def insertDesc {α : Type} (key : α → ℝ) (x : α) :
    List α → List α
  | [] => [x]
  | y :: ys => if key y ≤ key x then x :: y :: ys else y :: insertDesc key x ys

/-- The model of Python's `sorted(l, key=key, reverse=True)` (Timsort is
specified as a stable sort; any stable sort by the same order is
extensionally equal to it). -/
noncomputable def sortDesc {α : Type} (key : α → ℝ) : List α → List α
  | [] => []
  | x :: xs => insertDesc key x (sortDesc key xs)

/-- The sort key `lambda p: p['scoring_details']['final_score']` used in
`rank_places` (every place carries the entry at that point; a missing
entry is mapped to 0 to keep the function total). -/
def finalScoreKey (p : Place) : ℝ :=
  match p.scoring_details with
  | some d => d.final_score
  | none => 0

/-- The loop body of `rank_places` together with its side effect on the
place record: `calculate_final_score` calls
`sentiment_analyzer.analyze_reviews(place_data['reviews'])`, which mutates
every review dict of that list in place by writing a `sentiment_score`
key, and then `place['scoring_details'] = score_details` adds the
breakdown.  So after the loop body the record carries the annotated
reviews and the breakdown; all other fields are untouched. -/
noncomputable def attachScoringDetails (user_data : UserData)
    (emb : String → List (String × ℚ)) (sentiment_analyzer : SentimentAnalyzer)
    (predefined_attributes : List String) (place : Place) : Place :=
  let annotated := sentiment_analyzer.analyze_reviews place.reviews
  let details := calculate_final_score place user_data emb sentiment_analyzer
    predefined_attributes
  { place with reviews := annotated, scoring_details := some details }

/-- Function `rank_places` from `src/core_logic/ranking.py`: score every place,
attach the breakdown, and sort descending by the nested final score. -/
noncomputable def rank_places (user_data : UserData) (places_list : List Place)
    (emb : String → List (String × ℚ)) (sentiment_analyzer : SentimentAnalyzer)
    (predefined_attributes : List String) : List Place :=
  sortDesc finalScoreKey
    (places_list.map
      (attachScoringDetails user_data emb sentiment_analyzer predefined_attributes))

/-! ## Concrete sample data, used to instantiate the theorems -/

/-- A trivial attribute-scorer collaborator returning no attributes. -/
def sampleEmb : String → List (String × ℚ) := fun t => [("Cozy", if t = "" then 0 else 1)]

/-- A sentiment analyzer whose model load failed (`self.pipelines = {}`). -/
def sampleSA : SentimentAnalyzer := ⟨none⟩

/-- A sentiment analyzer with loaded pipelines that always answer `LABEL_1`. -/
def samplePosSA : SentimentAnalyzer := ⟨some (fun lang t => if lang = t then "LABEL_1" else "LABEL_1")⟩

/-- A concrete user at the origin with budget 1 and no preferences. -/
def sampleUser : UserData := { preferences := [], budget := 1, coords := (0, 0) }

/-- A concrete place at the origin with budget 1 and no reviews. -/
def samplePlace : Place :=
  { name := "cafe", reviews := [], budget := 1, coords := (0, 0), extra := [],
    scoring_details := none }

/-! ## Rounding lemmas -/

theorem roundHalfEven_intCast (k : ℤ) : roundHalfEven (k : ℝ) = k := by
  simp only [roundHalfEven, Int.floor_intCast]
  norm_num

theorem roundHalfEven_nonneg (y : ℝ) (hy : 0 ≤ y) : 0 ≤ roundHalfEven y := by
  simp only [roundHalfEven]
  have h0 : (0 : ℤ) ≤ ⌊y⌋ := Int.floor_nonneg.mpr hy
  split_ifs <;> omega

theorem roundHalfEven_le (y : ℝ) (N : ℤ) (h : y ≤ (N : ℝ)) : roundHalfEven y ≤ N := by
  have hfl : ⌊y⌋ ≤ N := by
    have := Int.floor_le_floor h
    rwa [Int.floor_intCast] at this
  have hfly : (⌊y⌋ : ℝ) ≤ y := Int.floor_le y
  simp only [roundHalfEven]
  split_ifs with h1 h2 h3
  · exact hfl
  · have hlt : (⌊y⌋ : ℝ) < y := by linarith
    have : (⌊y⌋ : ℝ) < (N : ℝ) := lt_of_lt_of_le hlt h
    have := Int.cast_lt.mp this
    omega
  · exact hfl
  · have hlt : (⌊y⌋ : ℝ) < y := by linarith
    have : (⌊y⌋ : ℝ) < (N : ℝ) := lt_of_lt_of_le hlt h
    have := Int.cast_lt.mp this
    omega

theorem round4_nonneg (x : ℝ) (hx : 0 ≤ x) : 0 ≤ round4 x := by
  unfold round4
  have h : 0 ≤ roundHalfEven (x * 10000) :=
    roundHalfEven_nonneg _ (by positivity)
  positivity

theorem round4_le_one (x : ℝ) (hx : x ≤ 1) : round4 x ≤ 1 := by
  unfold round4
  have h : roundHalfEven (x * 10000) ≤ (10000 : ℤ) := by
    apply roundHalfEven_le
    push_cast
    linarith
  rw [div_le_one (by norm_num)]
  calc (roundHalfEven (x * 10000) : ℝ) ≤ ((10000 : ℤ) : ℝ) := by exact_mod_cast h
    _ = 10000 := by norm_num

/-- Rounding `round4` is the identity on numbers that already have at most four
decimal places. -/
theorem round4_eq_self (k : ℤ) : round4 ((k : ℝ) / 10000) = (k : ℝ) / 10000 := by
  unfold round4
  have h : (k : ℝ) / 10000 * 10000 = (k : ℝ) := by ring
  rw [h, roundHalfEven_intCast]

theorem round4_zero : round4 0 = 0 := by
  have := round4_eq_self 0
  simpa using this

/-! ## Haversine and `atan2` lemmas -/

theorem atan2_nonneg (y x : ℝ) (hy : 0 ≤ y) : 0 ≤ atan2 y x := by
  have hπ := Real.pi_pos
  have harctan : ∀ z : ℝ, 0 ≤ z → 0 ≤ Real.arctan z := by
    intro z hz
    have h := Real.arctan_strictMono.monotone hz
    rwa [Real.arctan_zero] at h
  unfold atan2
  split_ifs <;>
    first
    | exact harctan _ (div_nonneg hy (le_of_lt (by assumption)))
    | exact absurd hy (by assumption)
    | linarith [Real.neg_pi_div_two_lt_arctan (y / x)]

theorem haversineDistance_nonneg (u p : ℝ × ℝ) : 0 ≤ haversineDistance u p := by
  unfold haversineDistance
  have h := atan2_nonneg (Real.sqrt (Real.sin ((radians p.1 - radians u.1) / 2) ^ 2 +
      Real.cos (radians u.1) * Real.cos (radians p.1) *
        Real.sin ((radians p.2 - radians u.2) / 2) ^ 2))
    (Real.sqrt (1 - (Real.sin ((radians p.1 - radians u.1) / 2) ^ 2 +
      Real.cos (radians u.1) * Real.cos (radians p.1) *
        Real.sin ((radians p.2 - radians u.2) / 2) ^ 2)))
    (Real.sqrt_nonneg _)
  positivity

theorem haversineDistance_self (u : ℝ × ℝ) : haversineDistance u u = 0 := by
  unfold haversineDistance atan2
  simp [Real.sqrt_one, Real.arctan_zero]

theorem atan2_sin_cos (θ : ℝ) (h1 : -(Real.pi/2) < θ) (h2 : θ < Real.pi/2) :
    atan2 (Real.sin θ) (Real.cos θ) = θ := by
  have hcos : 0 < Real.cos θ := Real.cos_pos_of_mem_Ioo ⟨h1, h2⟩
  unfold atan2
  rw [if_pos hcos, ← Real.tan_eq_sin_div_cos, Real.arctan_tan h1 h2]

/-- The haversine distance between two points on the same meridian with
latitudes 0 and `l`: the Earth radius times the latitude difference in
radians. -/
theorem haversineDistance_meridian (l lon : ℝ)
    (h1 : -(Real.pi/2) < radians l / 2) (h2 : radians l / 2 < Real.pi/2)
    (h3 : 0 ≤ Real.sin (radians l / 2)) :
    haversineDistance (0, lon) (l, lon) = 6371 * radians l := by
  have h0 : radians 0 = 0 := by unfold radians; ring
  have hcos : 0 < Real.cos (radians l / 2) := Real.cos_pos_of_mem_Ioo ⟨h1, h2⟩
  unfold haversineDistance
  simp only [h0, sub_zero, sub_self, zero_div, Real.sin_zero, Real.cos_zero]
  norm_num
  rw [Real.sqrt_sq h3]
  have hc : 1 - Real.sin (radians l / 2) ^ 2 = Real.cos (radians l / 2) ^ 2 := by
    have := Real.sin_sq_add_cos_sq (radians l / 2)
    linarith
  rw [hc, Real.sqrt_sq hcos.le, atan2_sin_cos _ h1 h2]
  ring

/-- The distance from the origin to latitude 0.2°, longitude 0: about
22.2 km, i.e. `6371·π/900`. -/
theorem haversineDistance_example :
    haversineDistance ((0 : ℝ), 0) ((1/5 : ℝ), 0) = 6371 * (Real.pi / 900) := by
  have hπ := Real.pi_pos
  have hr : radians (1/5) = Real.pi / 900 := by unfold radians; ring
  have h1 : -(Real.pi/2) < radians (1/5) / 2 := by rw [hr]; linarith
  have h2 : radians (1/5) / 2 < Real.pi/2 := by rw [hr]; linarith
  have h3 : 0 ≤ Real.sin (radians (1/5) / 2) := by
    rw [hr]
    exact (Real.sin_pos_of_pos_of_lt_pi (by linarith) (by linarith)).le
  have h := haversineDistance_meridian (1/5) 0 h1 h2 h3
  rw [hr] at h
  exact h

theorem haversineDistance_example_gt_ten :
    (10 : ℝ) < haversineDistance ((0 : ℝ), 0) ((1/5 : ℝ), 0) := by
  rw [haversineDistance_example]
  have := Real.pi_gt_three
  linarith

theorem haversineDistance_example_lt_fifty :
    haversineDistance ((0 : ℝ), 0) ((1/5 : ℝ), 0) < 50 := by
  rw [haversineDistance_example]
  have := Real.pi_le_four
  linarith

/-! ## Stable descending sort lemmas -/

theorem insertDesc_perm {α : Type} (key : α → ℝ) (x : α) (l : List α) :
    (insertDesc key x l).Perm (x :: l) := by
  induction l with
  | nil => simp [insertDesc]
  | cons y ys ih =>
    rw [insertDesc]
    split_ifs with h
    · exact List.Perm.refl _
    · exact (ih.cons y).trans (List.Perm.swap x y ys)

theorem mem_insertDesc {α : Type} (key : α → ℝ) (x a : α) (l : List α) :
    a ∈ insertDesc key x l ↔ a = x ∨ a ∈ l := by
  rw [(insertDesc_perm key x l).mem_iff, List.mem_cons]

theorem sortDesc_perm {α : Type} (key : α → ℝ) (l : List α) :
    (sortDesc key l).Perm l := by
  induction l with
  | nil => simp [sortDesc]
  | cons x xs ih =>
    rw [sortDesc]
    exact (insertDesc_perm key x (sortDesc key xs)).trans (ih.cons x)

theorem pairwise_insertDesc {α : Type} (key : α → ℝ) (x : α) (l : List α)
    (h : l.Pairwise (fun a b => key b ≤ key a)) :
    (insertDesc key x l).Pairwise (fun a b => key b ≤ key a) := by
  induction l with
  | nil => simp [insertDesc]
  | cons y ys ih =>
    rw [insertDesc]
    rcases List.pairwise_cons.mp h with ⟨hy, hys⟩
    split_ifs with hxy
    · constructor
      · intro b hb
        rcases List.mem_cons.mp hb with rfl | hb
        · exact hxy
        · have := hy b hb
          linarith
      · exact h
    · constructor
      · intro b hb
        rcases (mem_insertDesc key x b ys).mp hb with rfl | hb
        · linarith [not_le.mp hxy]
        · exact hy b hb
      · exact ih hys

theorem sortDesc_pairwise {α : Type} (key : α → ℝ) (l : List α) :
    (sortDesc key l).Pairwise (fun a b => key b ≤ key a) := by
  induction l with
  | nil => simp [sortDesc]
  | cons x xs ih =>
    rw [sortDesc]
    exact pairwise_insertDesc key x _ ih

theorem filter_insertDesc {α : Type} (key : α → ℝ) (x : α) (l : List α) (v : ℝ) :
    (insertDesc key x l).filter (fun a => key a = v) =
      if key x = v then x :: l.filter (fun a => key a = v)
      else l.filter (fun a => key a = v) := by
  induction l with
  | nil =>
    by_cases hv : key x = v <;> simp [insertDesc, List.filter_cons, hv]
  | cons y ys ih =>
    by_cases hxy : key y ≤ key x
    · rw [insertDesc, if_pos hxy]
      by_cases hv : key x = v <;> simp [List.filter_cons, hv]
    · rw [insertDesc, if_neg hxy]
      by_cases hv : key x = v
      · have hyv : ¬(key y = v) := by
          intro hYv
          exact hxy (le_of_eq (hYv.trans hv.symm))
        simp [List.filter_cons, hv, hyv, ih]
      · simp [List.filter_cons, hv, ih]

/-- Stability of the model sort: within each class of equal keys the sorted
list keeps the original order. -/
theorem sortDesc_filter {α : Type} (key : α → ℝ) (l : List α) (v : ℝ) :
    (sortDesc key l).filter (fun a => key a = v) =
      l.filter (fun a => key a = v) := by
  induction l with
  | nil => simp [sortDesc]
  | cons x xs ih =>
    rw [sortDesc, filter_insertDesc]
    by_cases hv : key x = v <;> simp [List.filter_cons, hv, ih]

/-! ## Lookup and weight-sum lemmas -/

theorem lookupD_nil (k : String) : lookupD [] k = 0 := rfl

theorem lookupD_cons (p : String × ℚ) (rest : List (String × ℚ)) (k : String) :
    lookupD (p :: rest) k = if p.1 = k then p.2 else lookupD rest k := by
  unfold lookupD
  by_cases h : p.1 = k
  · rw [List.find?_cons_of_pos _ (by simpa using h), if_pos h]
  · rw [List.find?_cons_of_neg _ (by simpa using h), if_neg h]

theorem lookupD_nonneg (l : List (String × ℚ)) (k : String)
    (h : ∀ p ∈ l, 0 ≤ p.2) : 0 ≤ lookupD l k := by
  unfold lookupD
  cases hf : l.find? (fun p => p.1 = k) with
  | none => exact le_refl 0
  | some p => exact h p (List.mem_of_find?_eq_some hf)

theorem lookupD_le_one (l : List (String × ℚ)) (k : String)
    (h : ∀ p ∈ l, p.2 ≤ 1) : lookupD l k ≤ 1 := by
  unfold lookupD
  cases hf : l.find? (fun p => p.1 = k) with
  | none => norm_num
  | some p => exact h p (List.mem_of_find?_eq_some hf)

theorem lookupD_map (f : ℚ → ℚ) (hf : f 0 = 0) (l : List (String × ℚ)) (k : String) :
    lookupD (l.map (fun p => (p.1, f p.2))) k = f (lookupD l k) := by
  induction l with
  | nil => simp [lookupD_nil, hf]
  | cons p rest ih =>
    rw [List.map_cons, lookupD_cons, lookupD_cons]
    by_cases h : p.1 = k <;> simp [h, ih]

theorem lookupD_map_self (f : String → ℚ) (attrs : List String) (k : String) :
    lookupD (attrs.map (fun a => (a, f a))) k = if k ∈ attrs then f k else 0 := by
  induction attrs with
  | nil => simp [lookupD_nil]
  | cons a rest ih =>
    rw [List.map_cons, lookupD_cons]
    by_cases h : a = k
    · subst h
      simp
    · simp [h, Ne.symm h, ih, List.mem_cons]

theorem sumWeights_nil : sumWeights [] = 0 := rfl

theorem sumWeights_cons (p : String × ℚ) (rest : List (String × ℚ)) :
    sumWeights (p :: rest) = p.2 + sumWeights rest := by
  unfold sumWeights
  rw [List.map_cons, List.sum_cons]

theorem sumWeights_map_mul (c : ℚ) (l : List (String × ℚ)) :
    sumWeights (l.map (fun p => (p.1, c * p.2))) = c * sumWeights l := by
  induction l with
  | nil => simp [sumWeights_nil]
  | cons p rest ih =>
    rw [List.map_cons, sumWeights_cons, sumWeights_cons, ih]
    dsimp only
    ring

theorem sum_map_add_aux {β : Type} (l : List β) (f g : β → ℚ) :
    (l.map (fun a => f a + g a)).sum = (l.map f).sum + (l.map g).sum := by
  induction l with
  | nil => simp
  | cons a rest ih =>
    simp only [List.map_cons, List.sum_cons, ih]
    ring

theorem sum_map_div_aux (l : List String) (f : String → ℚ) (T : ℚ) :
    (l.map (fun a => f a / T)).sum = (l.map f).sum / T := by
  induction l with
  | nil => simp
  | cons a rest ih =>
    simp only [List.map_cons, List.sum_cons, ih]
    ring

theorem sum_indicator_le (k : String) (v : ℚ) (hv : 0 ≤ v) :
    ∀ (attrs : List String), attrs.Nodup →
      (attrs.map (fun a => if k = a then v else 0)).sum ≤ v := by
  intro attrs
  induction attrs with
  | nil =>
    intro _
    simpa using hv
  | cons a rest ih =>
    intro hattrs
    rcases List.nodup_cons.mp hattrs with ⟨ha, hrest⟩
    rw [List.map_cons, List.sum_cons]
    by_cases h : k = a
    · have hz : (rest.map (fun b => if k = b then v else 0)).sum = 0 := by
        apply List.sum_eq_zero
        intro x hx
        rcases List.mem_map.mp hx with ⟨b, hb, rfl⟩
        rw [if_neg]
        intro hkb
        have hab : a = b := h.symm.trans hkb
        exact ha (by rwa [hab])
      rw [if_pos h, hz]
      linarith
    · rw [if_neg h]
      have := ih hrest
      linarith

/-- The sum of first-match lookups over duplicate-free attributes is at most
the total weight, provided all weights are non-negative. -/
theorem sum_lookupD_le (attrs : List String) (hattrs : attrs.Nodup) :
    ∀ (prefs : List (String × ℚ)), (∀ p ∈ prefs, 0 ≤ p.2) →
      (attrs.map (fun a => lookupD prefs a)).sum ≤ sumWeights prefs := by
  intro prefs
  induction prefs with
  | nil =>
    intro _
    simp [lookupD_nil, sumWeights_nil]
  | cons p rest ih =>
    intro hv
    have hrest : ∀ q ∈ rest, 0 ≤ q.2 := fun q hq => hv q (List.mem_cons_of_mem _ hq)
    have hp : 0 ≤ p.2 := hv p (List.mem_cons_self _ _)
    have hpoint : ∀ a ∈ attrs,
        lookupD (p :: rest) a ≤ lookupD rest a + (if p.1 = a then p.2 else 0) := by
      intro a _
      rw [lookupD_cons]
      by_cases h : p.1 = a
      · rw [if_pos h, if_pos h]
        have := lookupD_nonneg rest a hrest
        linarith
      · rw [if_neg h, if_neg h]
        linarith
    have h1 := List.sum_le_sum hpoint
    have h2 := sum_map_add_aux attrs (fun a => lookupD rest a)
      (fun a => if p.1 = a then p.2 else 0)
    have h3 := ih hrest
    have h4 := sum_indicator_le p.1 p.2 hp attrs hattrs
    rw [sumWeights_cons]
    calc (attrs.map (fun a => lookupD (p :: rest) a)).sum
        ≤ (attrs.map (fun a => lookupD rest a + (if p.1 = a then p.2 else 0))).sum := h1
      _ = (attrs.map (fun a => lookupD rest a)).sum +
          (attrs.map (fun a => if p.1 = a then p.2 else 0)).sum := h2
      _ ≤ sumWeights rest + p.2 := add_le_add h3 h4
      _ = p.2 + sumWeights rest := by ring

/-! ## Unit-interval bounds for the component scores -/

theorem sumForKey_unit (attr : String) :
    ∀ (scores : List (String × ℚ)), (scores.map Prod.fst).Nodup →
      (∀ p ∈ scores, 0 ≤ p.2 ∧ p.2 ≤ 1) →
      0 ≤ sumForKey scores attr ∧ sumForKey scores attr ≤ 1 := by
  intro scores
  induction scores with
  | nil =>
    intro _ _
    simp [sumForKey]
  | cons p rest ih =>
    intro hnd hval
    have hnd' : (p.1 :: rest.map Prod.fst).Nodup := by simpa using hnd
    rcases List.nodup_cons.mp hnd' with ⟨hp1, hrestnd⟩
    have hrestval : ∀ q ∈ rest, 0 ≤ q.2 ∧ q.2 ≤ 1 :=
      fun q hq => hval q (List.mem_cons_of_mem _ hq)
    unfold sumForKey
    rw [List.filter_cons]
    by_cases h : p.1 = attr
    · have hfilter : rest.filter (fun q => q.1 = attr) = [] := by
        rw [List.filter_eq_nil_iff]
        intro q hq
        simp only [decide_eq_true_eq]
        intro hqa
        exact hp1 (by rw [← h] at hqa; exact hqa ▸ List.mem_map_of_mem Prod.fst hq)
      simp only [h, decide_True, if_true, hfilter, List.map_cons, List.map_nil,
        List.sum_cons, List.sum_nil, add_zero]
      exact hval p (List.mem_cons_self _ _)
    · simp only [h, decide_False, if_false]
      exact ih hrestnd hrestval

theorem attributeSum_unit (emb : String → List (String × ℚ)) (included : List Review)
    (attr : String)
    (hemb : ∀ t, ((emb t).map Prod.fst).Nodup ∧ ∀ p ∈ emb t, 0 ≤ p.2 ∧ p.2 ≤ 1) :
    0 ≤ attributeSum emb included attr ∧
      attributeSum emb included attr ≤ (included.length : ℚ) := by
  unfold attributeSum
  constructor
  · apply List.sum_nonneg
    intro x hx
    rcases List.mem_map.mp hx with ⟨r, _, rfl⟩
    exact (sumForKey_unit attr _ (hemb _).1 (hemb _).2).1
  · have hb : ∀ x ∈ included.map (fun r => sumForKey (emb (reviewText r)) attr),
        x ≤ (1 : ℚ) := by
      intro x hx
      rcases List.mem_map.mp hx with ⟨r, _, rfl⟩
      exact (sumForKey_unit attr _ (hemb _).1 (hemb _).2).2
    have := List.sum_le_card_nsmul _ _ hb
    calc (included.map (fun r => sumForKey (emb (reviewText r)) attr)).sum
        ≤ (included.map (fun r => sumForKey (emb (reviewText r)) attr)).length • (1 : ℚ) :=
          this
      _ = (included.length : ℚ) := by
          simp [List.length_map, nsmul_eq_mul]

theorem map_fst_pairs {γ : Type} (f : String → γ) (l : List String) :
    (l.map (fun a => (a, f a))).map Prod.fst = l := by
  induction l with
  | nil => rfl
  | cons a rest ih => simp [ih]

theorem profile_keys (reviews : List Review) (emb : String → List (String × ℚ))
    (preds : List String) :
    (calculate_place_attribute_profile reviews emb preds).map Prod.fst = preds := by
  simp only [calculate_place_attribute_profile]
  split_ifs <;> apply map_fst_pairs

theorem profile_value_unit (reviews : List Review) (emb : String → List (String × ℚ))
    (preds : List String) (attr : String)
    (hemb : ∀ t, ((emb t).map Prod.fst).Nodup ∧ ∀ p ∈ emb t, 0 ≤ p.2 ∧ p.2 ≤ 1) :
    0 ≤ lookupD (calculate_place_attribute_profile reviews emb preds) attr ∧
      lookupD (calculate_place_attribute_profile reviews emb preds) attr ≤ 1 := by
  simp only [calculate_place_attribute_profile]
  split_ifs with h1 h2
  · rw [lookupD_map_self (fun _ => 0)]
    split_ifs <;> norm_num
  · rw [lookupD_map_self]
    split_ifs with hmem
    · have hb := attributeSum_unit emb (reviews.filter (fun r => hasContent r)) attr hemb
      have hn : 0 < ((reviews.filter (fun r => hasContent r)).length : ℚ) := by
        exact_mod_cast h2
      constructor
      · exact div_nonneg hb.1 hn.le
      · rw [div_le_one hn]
        exact hb.2
    · norm_num
  · rw [lookupD_map_self (fun _ => 0)]
    split_ifs <;> norm_num

theorem calculate_preference_score_nonneg_le_one (prefs prof : List (String × ℚ))
    (preds : List String) (hw : ∀ p ∈ prefs, 0 ≤ p.2) (hpreds : preds.Nodup)
    (hprof : ∀ a, 0 ≤ lookupD prof a ∧ lookupD prof a ≤ 1) :
    0 ≤ calculate_preference_score prefs prof preds ∧
      calculate_preference_score prefs prof preds ≤ 1 := by
  simp only [calculate_preference_score]
  split_ifs with hT
  · have hmap : ∀ a : String,
        lookupD (prefs.map (fun p => (p.1, p.2 / sumWeights prefs))) a =
          lookupD prefs a / sumWeights prefs := by
      intro a
      exact lookupD_map (fun w => w / sumWeights prefs) (by simp) prefs a
    constructor
    · apply List.sum_nonneg
      intro x hx
      rcases List.mem_map.mp hx with ⟨a, _, rfl⟩
      rw [hmap]
      exact mul_nonneg (div_nonneg (lookupD_nonneg prefs a hw) hT.le) (hprof a).1
    · have hterm : ∀ a ∈ preds,
          lookupD (prefs.map (fun p => (p.1, p.2 / sumWeights prefs))) a *
            lookupD prof a ≤ lookupD prefs a / sumWeights prefs := by
        intro a _
        rw [hmap]
        have h0 : 0 ≤ lookupD prefs a / sumWeights prefs :=
          div_nonneg (lookupD_nonneg prefs a hw) hT.le
        calc lookupD prefs a / sumWeights prefs * lookupD prof a
            ≤ lookupD prefs a / sumWeights prefs * 1 :=
              mul_le_mul_of_nonneg_left (hprof a).2 h0
          _ = lookupD prefs a / sumWeights prefs := mul_one _
      have hsum := List.sum_le_sum hterm
      have hdiv := sum_map_div_aux preds (fun a => lookupD prefs a) (sumWeights prefs)
      have hle := sum_lookupD_le preds hpreds prefs hw
      calc (preds.map (fun attr =>
              lookupD (prefs.map (fun p => (p.1, p.2 / sumWeights prefs))) attr *
                lookupD prof attr)).sum
          ≤ (preds.map (fun a => lookupD prefs a / sumWeights prefs)).sum := hsum
        _ = (preds.map (fun a => lookupD prefs a)).sum / sumWeights prefs := hdiv
        _ ≤ sumWeights prefs / sumWeights prefs :=
            div_le_div_of_nonneg_right hle hT.le
        _ = 1 := div_self (ne_of_gt hT)
  · norm_num

/-! ## Sentiment analyzer lemmas -/

theorem analyzeReview_score (classify : String → String → String) (r : Review) :
    (analyzeReview classify r).sentiment_score = some 0 ∨
    (analyzeReview classify r).sentiment_score = some (1/2) ∨
    (analyzeReview classify r).sentiment_score = some 1 := by
  rcases r with ⟨t, s⟩
  cases t with
  | none =>
    right; left; rfl
  | some t =>
    simp only [analyzeReview]
    split_ifs with h1 h2 h3
    · right; left; rfl
    · right; right; rfl
    · left; rfl
    · right; left; rfl

theorem analyze_reviews_length (sa : SentimentAnalyzer) (rs : List Review) :
    (sa.analyze_reviews rs).length = rs.length := by
  unfold SentimentAnalyzer.analyze_reviews
  cases sa.models <;> simp

theorem analyze_reviews_scores (sa : SentimentAnalyzer) (rs : List Review) :
    ∀ r' ∈ sa.analyze_reviews rs,
      r'.sentiment_score = some 0 ∨ r'.sentiment_score = some (1/2) ∨
        r'.sentiment_score = some 1 := by
  intro r' hr'
  cases hm : sa.models with
  | none =>
    simp only [SentimentAnalyzer.analyze_reviews, hm] at hr'
    rcases List.mem_map.mp hr' with ⟨r, _, rfl⟩
    left; rfl
  | some classify =>
    simp only [SentimentAnalyzer.analyze_reviews, hm] at hr'
    rcases List.mem_map.mp hr' with ⟨r, _, rfl⟩
    exact analyzeReview_score classify r

theorem analyzeReview_text (classify : String → String → String) (r : Review) :
    (analyzeReview classify r).text = r.text := by
  rcases r with ⟨t, s⟩
  cases t with
  | none => rfl
  | some t =>
    simp only [analyzeReview]
    split_ifs <;> rfl

theorem analyze_reviews_texts (sa : SentimentAnalyzer) (rs : List Review) :
    (sa.analyze_reviews rs).map Review.text = rs.map Review.text := by
  unfold SentimentAnalyzer.analyze_reviews
  cases sa.models with
  | none =>
    rw [List.map_map]
    apply List.map_congr_left
    intro r _
    rfl
  | some classify =>
    rw [List.map_map]
    apply List.map_congr_left
    intro r _
    exact analyzeReview_text classify r

theorem analyze_reviews_getD_unit (sa : SentimentAnalyzer) (rs : List Review) :
    ∀ r' ∈ sa.analyze_reviews rs,
      0 ≤ r'.sentiment_score.getD (1/2) ∧ r'.sentiment_score.getD (1/2) ≤ 1 := by
  intro r' hr'
  rcases analyze_reviews_scores sa rs r' hr' with h | h | h <;> rw [h] <;> norm_num

theorem calculate_aggregated_sentiment_unit (rs : List Review)
    (h : ∀ r ∈ rs, 0 ≤ r.sentiment_score.getD (1/2) ∧ r.sentiment_score.getD (1/2) ≤ 1) :
    0 ≤ calculate_aggregated_sentiment rs ∧ calculate_aggregated_sentiment rs ≤ 1 := by
  unfold calculate_aggregated_sentiment
  split_ifs with he
  · norm_num
  · have hne : rs ≠ [] := by
      intro hnil
      rw [hnil] at he
      simp at he
    have hlen : 0 < (rs.length : ℚ) := by
      have := List.length_pos.mpr hne
      exact_mod_cast this
    constructor
    · apply div_nonneg _ hlen.le
      apply List.sum_nonneg
      intro x hx
      rcases List.mem_map.mp hx with ⟨r, hr, rfl⟩
      exact (h r hr).1
    · rw [div_le_one hlen]
      have hb : ∀ x ∈ rs.map (fun r => r.sentiment_score.getD (1/2)), x ≤ (1 : ℚ) := by
        intro x hx
        rcases List.mem_map.mp hx with ⟨r, hr, rfl⟩
        exact (h r hr).2
      have := List.sum_le_card_nsmul _ _ hb
      calc (rs.map (fun r => r.sentiment_score.getD (1/2))).sum
          ≤ (rs.map (fun r => r.sentiment_score.getD (1/2))).length • (1 : ℚ) := this
        _ = (rs.length : ℚ) := by simp [List.length_map, nsmul_eq_mul]

/-! ## Budget and proximity bounds -/

theorem calculate_budget_score_unit (ub pb : ℤ) (hub1 : 0 ≤ ub) (hub2 : ub ≤ 3)
    (hpb1 : 0 ≤ pb) (hpb2 : pb ≤ 3) :
    0 ≤ calculate_budget_score ub pb ∧ calculate_budget_score ub pb ≤ 1 := by
  unfold calculate_budget_score
  have habs : |ub - pb| ≤ 3 := by
    rw [abs_le]
    omega
  have habs0 : (0 : ℤ) ≤ |ub - pb| := abs_nonneg _
  have h1 : ((|ub - pb| : ℤ) : ℚ) ≤ 3 := by exact_mod_cast habs
  have h2 : (0 : ℚ) ≤ ((|ub - pb| : ℤ) : ℚ) := by exact_mod_cast habs0
  constructor
  · linarith
  · linarith

theorem calculate_proximity_score_unit (u p : ℝ × ℝ) (max_km : ℤ)
    (hmax : 0 < max_km) :
    0 ≤ calculate_proximity_score u p max_km ∧
      calculate_proximity_score u p max_km ≤ 1 := by
  have hd := haversineDistance_nonneg u p
  have hmaxR : (0 : ℝ) < (max_km : ℝ) := by exact_mod_cast hmax
  simp only [calculate_proximity_score]
  split_ifs with h
  · norm_num
  · push_neg at h
    have hle : haversineDistance u p / (max_km : ℝ) ≤ 1 := by
      rw [div_le_one hmaxR]
      exact h
    have hge : 0 ≤ haversineDistance u p / (max_km : ℝ) := div_nonneg hd hmaxR.le
    constructor
    · linarith
    · linarith

theorem sumForKey_eq_zero_of_not_mem (scores : List (String × ℚ)) (a : String)
    (h : a ∉ scores.map Prod.fst) : sumForKey scores a = 0 := by
  unfold sumForKey
  have hf : scores.filter (fun p => p.1 = a) = [] := by
    rw [List.filter_eq_nil_iff]
    intro p hp
    simp only [decide_eq_true_eq]
    intro hpa
    exact h (hpa ▸ List.mem_map_of_mem Prod.fst hp)
  rw [hf]
  rfl

/-- The two zero branches of `calculate_place_attribute_profile` coincide:
the profile is the average over content-bearing reviews when there are
any, and the all-zero profile otherwise. -/
theorem profile_canonical (reviews : List Review) (emb : String → List (String × ℚ))
    (preds : List String) :
    calculate_place_attribute_profile reviews emb preds =
      if 0 < (reviews.filter (fun r => hasContent r)).length then
        preds.map (fun a => (a,
          attributeSum emb (reviews.filter (fun r => hasContent r)) a /
            ((reviews.filter (fun r => hasContent r)).length : ℚ)))
      else preds.map (fun a => (a, 0)) := by
  simp only [calculate_place_attribute_profile]
  split_ifs with h1 h2 <;> try rfl
  exfalso
  have hnil : reviews = [] := List.isEmpty_iff.mp h1
  rw [hnil] at h2
  simp at h2

/-! ## Claim theorems -/

/-- Claim C1: For every user profile and every list of places, `rank_places`
returns exactly the stable descending sort of the scored input by
`final_score`: the output is a permutation of the scored input places
(same length as the input, no place dropped, duplicated, or fabricated),
`final_score` values are non-increasing along the output, and places whose
`final_score` ties exactly retain their original relative input order. -/
theorem rank_places_stable_descending_sort (ud : UserData) (places : List Place)
    (emb : String → List (String × ℚ)) (sa : SentimentAnalyzer)
    (preds : List String) :
    (rank_places ud places emb sa preds).Perm
        (places.map (attachScoringDetails ud emb sa preds)) ∧
    (rank_places ud places emb sa preds).length = places.length ∧
    (rank_places ud places emb sa preds).Pairwise
        (fun a b => finalScoreKey b ≤ finalScoreKey a) ∧
    ∀ v : ℝ,
      (rank_places ud places emb sa preds).filter (fun p => finalScoreKey p = v) =
        (places.map (attachScoringDetails ud emb sa preds)).filter
          (fun p => finalScoreKey p = v) := by
  refine ⟨sortDesc_perm _ _, ?_, sortDesc_pairwise _ _, fun v => sortDesc_filter _ _ v⟩
  calc (rank_places ud places emb sa preds).length
      = (places.map (attachScoringDetails ud emb sa preds)).length :=
        (sortDesc_perm finalScoreKey _).length_eq
    _ = places.length := List.length_map _ _

/-- Claim C2: For every sentiment, preference, proximity, and budget component
value, `calculate_final_score` returns
`final_score = 0.25·sentiment + 0.30·preference + 0.30·proximity + 0.15·budget`,
and each of the five returned values is rounded to 4 decimal places exactly
once, at the output boundary; the final score is computed from the
unrounded components before its own rounding. -/
theorem calculate_final_score_eq_combine_spec (pd : Place) (ud : UserData)
    (emb : String → List (String × ℚ)) (sa : SentimentAnalyzer)
    (preds : List String) :
    calculate_final_score pd ud emb sa preds =
      combine_spec
        ((calculate_aggregated_sentiment (sa.analyze_reviews pd.reviews) : ℚ) : ℝ)
        ((calculate_preference_score ud.preferences
            (calculate_place_attribute_profile pd.reviews emb preds) preds : ℚ) : ℝ)
        (calculate_proximity_score ud.coords pd.coords 10)
        ((calculate_budget_score ud.budget pd.budget : ℚ) : ℝ) := by
  simp only [calculate_final_score, combine_spec, ScoreDetails.mk.injEq, and_true,
    true_and]
  congr 1
  ring

/-- Claim C4: For every pair of coordinates and every positive maximum
distance, the proximity score is computed from the haversine great-circle
distance with Earth radius 6371 km; above `maxDistanceKm` the score is
exactly 0.0, otherwise it is `1 − distance/maxDistanceKm`, so it is 1.0 at
distance 0 (in particular at identical coordinates) and 0.0 at distance
equal to `maxDistanceKm`, and it is never negative. -/
theorem proximity_score_contract (u p : ℝ × ℝ) (max_km : ℤ) (hmax : 0 < max_km) :
    calculate_proximity_score u p max_km =
      (if haversineDistance u p > (max_km : ℝ) then 0
       else 1 - haversineDistance u p / (max_km : ℝ)) ∧
    (haversineDistance u p > (max_km : ℝ) →
      calculate_proximity_score u p max_km = 0) ∧
    (u = p → calculate_proximity_score u p max_km = 1) ∧
    (haversineDistance u p = 0 → calculate_proximity_score u p max_km = 1) ∧
    (haversineDistance u p = (max_km : ℝ) →
      calculate_proximity_score u p max_km = 0) ∧
    0 ≤ calculate_proximity_score u p max_km := by
  have hmaxR : (0 : ℝ) < (max_km : ℝ) := by exact_mod_cast hmax
  refine ⟨rfl, ?_, ?_, ?_, ?_, (calculate_proximity_score_unit u p max_km hmax).1⟩
  · intro h
    simp only [calculate_proximity_score]
    rw [if_pos h]
  · intro h
    subst h
    simp only [calculate_proximity_score, haversineDistance_self]
    rw [if_neg (by linarith)]
    norm_num
  · intro h
    simp only [calculate_proximity_score]
    rw [h, if_neg (by linarith)]
    norm_num
  · intro h
    simp only [calculate_proximity_score]
    rw [h, if_neg (lt_irrefl _), div_self (ne_of_gt hmaxR)]
    norm_num

/-- Claim C4 witness: the contract instantiated at the origin and the
default cutoff of 10 km. -/
theorem proximity_score_contract_witness :
    (0 : ℤ) < 10 ∧ calculate_proximity_score ((0 : ℝ), 0) ((0 : ℝ), 0) 10 = 1 :=
  ⟨by norm_num,
    (proximity_score_contract ((0 : ℝ), 0) ((0 : ℝ), 0) 10 (by norm_num)).2.2.1 rfl⟩

/-- Claim C6: For every user preference weight map, `calculate_preference_score`
returns exactly 0.0 when the sum of the raw weights is ≤ 0, and otherwise
divides each weight by that sum before taking the weighted sum over the
predefined attributes; consequently scaling all weights by a positive
constant leaves the score unchanged, and an empty preference mapping
yields 0.0. -/
theorem preference_score_contract (prefs prof : List (String × ℚ))
    (preds : List String) :
    (sumWeights prefs ≤ 0 → calculate_preference_score prefs prof preds = 0) ∧
    (0 < sumWeights prefs →
      calculate_preference_score prefs prof preds =
        (preds.map (fun a => lookupD prefs a / sumWeights prefs * lookupD prof a)).sum) ∧
    (∀ c : ℚ, 0 < c →
      calculate_preference_score (prefs.map (fun p => (p.1, c * p.2))) prof preds =
        calculate_preference_score prefs prof preds) ∧
    calculate_preference_score [] prof preds = 0 := by
  refine ⟨?_, ?_, ?_, ?_⟩
  · intro h
    simp only [calculate_preference_score]
    rw [if_neg (not_lt.mpr h)]
  · intro h
    simp only [calculate_preference_score]
    rw [if_pos h]
    apply congrArg List.sum
    apply List.map_congr_left
    intro a _
    rw [lookupD_map (fun w => w / sumWeights prefs) (by simp) prefs a]
  · intro c hc
    have hsum := sumWeights_map_mul c prefs
    by_cases hT : 0 < sumWeights prefs
    · have hcT : 0 < sumWeights (prefs.map (fun p => (p.1, c * p.2))) := by
        rw [hsum]
        exact mul_pos hc hT
      simp only [calculate_preference_score]
      rw [if_pos hcT, if_pos hT]
      apply congrArg List.sum
      apply List.map_congr_left
      intro a _
      congr 1
      rw [lookupD_map (fun w => w / sumWeights (prefs.map (fun p => (p.1, c * p.2))))
          (by simp) _ a,
        lookupD_map (fun w => c * w) (by simp) prefs a,
        lookupD_map (fun w => w / sumWeights prefs) (by simp) prefs a,
        hsum, mul_div_mul_left _ _ (ne_of_gt hc)]
    · have hcT : ¬ 0 < sumWeights (prefs.map (fun p => (p.1, c * p.2))) := by
        rw [hsum]
        intro hpos
        apply hT
        nlinarith
      simp only [calculate_preference_score]
      rw [if_neg hcT, if_neg hT]
  · simp only [calculate_preference_score, sumWeights_nil]
    norm_num

/-- Claim C6 witness: weights `{A: 2, B: 2}` behave identically to
`{A: 0.5, B: 0.5}`, over a concrete profile. -/
theorem preference_score_contract_witness :
    (0 : ℚ) < 4 ∧
    calculate_preference_score
        ([("A", (1/2 : ℚ)), ("B", 1/2)].map (fun p => (p.1, (4 : ℚ) * p.2)))
        [("A", (1/2 : ℚ))] ["A", "B"] =
      calculate_preference_score [("A", (1/2 : ℚ)), ("B", 1/2)]
        [("A", (1/2 : ℚ))] ["A", "B"] :=
  ⟨by norm_num,
    (preference_score_contract [("A", (1/2 : ℚ)), ("B", 1/2)]
      [("A", (1/2 : ℚ))] ["A", "B"]).2.2.1 4 (by norm_num)⟩

/-- Claim C5: For every list of reviews, `calculate_place_attribute_profile`
excludes reviews with blank, whitespace-only, or absent text from
aggregation entirely (appending such reviews changes nothing, and they do
not enter the denominator); each attribute value is the sum of the
scorer's per-review scores divided by the count of included reviews only;
with zero included reviews every predefined attribute maps to 0.0 as a
defined degraded value; and every attribute in `predefinedAttributes`
appears in the output, defaulting to 0.0 when the scorer never returned
it. -/
theorem attribute_profile_contract (reviews : List Review)
    (emb : String → List (String × ℚ)) (preds : List String) :
    ((calculate_place_attribute_profile reviews emb preds).map Prod.fst = preds) ∧
    ((reviews.filter (fun r => hasContent r)).length = 0 →
      calculate_place_attribute_profile reviews emb preds =
        preds.map (fun a => (a, 0))) ∧
    (0 < (reviews.filter (fun r => hasContent r)).length →
      calculate_place_attribute_profile reviews emb preds =
        preds.map (fun a => (a,
          attributeSum emb (reviews.filter (fun r => hasContent r)) a /
            ((reviews.filter (fun r => hasContent r)).length : ℚ)))) ∧
    (∀ extra : List Review, (∀ r ∈ extra, hasContent r = false) →
      calculate_place_attribute_profile (reviews ++ extra) emb preds =
        calculate_place_attribute_profile reviews emb preds) ∧
    (∀ a ∈ preds,
      (∀ r ∈ reviews.filter (fun r => hasContent r),
          a ∉ (emb (reviewText r)).map Prod.fst) →
        lookupD (calculate_place_attribute_profile reviews emb preds) a = 0) := by
  refine ⟨profile_keys reviews emb preds, ?_, ?_, ?_, ?_⟩
  · intro h0
    rw [profile_canonical, if_neg]
    omega
  · intro hpos
    rw [profile_canonical, if_pos hpos]
  · intro extra hext
    have hfe : extra.filter (fun r => hasContent r) = [] := by
      rw [List.filter_eq_nil_iff]
      intro r hr
      simp [hext r hr]
    have hfilter : (reviews ++ extra).filter (fun r => hasContent r) =
        reviews.filter (fun r => hasContent r) := by
      rw [List.filter_append, hfe, List.append_nil]
    rw [profile_canonical, profile_canonical, hfilter]
  · intro a ha hnone
    have hz : attributeSum emb (reviews.filter (fun r => hasContent r)) a = 0 := by
      unfold attributeSum
      apply List.sum_eq_zero
      intro x hx
      rcases List.mem_map.mp hx with ⟨r, hr, rfl⟩
      exact sumForKey_eq_zero_of_not_mem _ _ (hnone r hr)
    rw [profile_canonical]
    split_ifs with h
    · rw [lookupD_map_self, if_pos ha, hz, zero_div]
    · rw [lookupD_map_self (fun _ => 0), if_pos ha]

/-- Claim C5 witness: a single whitespace-only review is excluded, so the
profile degrades to all zeros over the predefined attributes. -/
theorem attribute_profile_contract_witness :
    ([(⟨some "   ", none⟩ : Review)].filter (fun r => hasContent r)).length = 0 ∧
    calculate_place_attribute_profile [⟨some "   ", none⟩] sampleEmb ["Cozy"] =
      ["Cozy"].map (fun a => (a, 0)) :=
  ⟨by decide,
    (attribute_profile_contract [⟨some "   ", none⟩] sampleEmb ["Cozy"]).2.1
      (by decide)⟩

/-- Claim C7 (amended): `_calculate_proximity_score` accepts a
`max_distance_km` parameter defaulting to 10, but `rank_places` and
`calculate_final_score` expose no such parameter; every proximity score
produced by the engine is computed against the fixed built-in default of
10 km. -/
theorem proximity_uses_fixed_default (pd : Place) (ud : UserData)
    (emb : String → List (String × ℚ)) (sa : SentimentAnalyzer)
    (preds : List String) :
    (calculate_final_score pd ud emb sa preds).proximity_score =
      round4 (calculate_proximity_score ud.coords pd.coords 10) := rfl

/-- Claim C7 (counterexample): at a place 6371·π/900 ≈ 22.2 km away, a
caller-supplied cutoff of 50 km would yield a positive proximity score,
but the engine's pipeline returns exactly 0 — so the proximity score is
not computed against any caller-supplied maximum distance. -/
theorem proximity_not_caller_supplied_counterexample :
    0 < calculate_proximity_score ((0 : ℝ), 0) ((1/5 : ℝ), 0) 50 ∧
    (calculate_final_score
        { name := "cafe", reviews := [], budget := 1, coords := ((1/5 : ℝ), 0),
          extra := [], scoring_details := none }
        { preferences := [], budget := 1, coords := ((0 : ℝ), 0) }
        (fun _ => []) ⟨none⟩ []).proximity_score = 0 := by
  constructor
  · have hlt := haversineDistance_example_lt_fifty
    simp only [calculate_proximity_score]
    rw [if_neg (by push_cast; linarith)]
    have hdivlt : haversineDistance ((0 : ℝ), 0) ((1/5 : ℝ), 0) / ((50 : ℤ) : ℝ) < 1 := by
      rw [div_lt_one (by norm_num)]
      push_cast
      linarith
    linarith
  · have h0 : calculate_proximity_score ((0 : ℝ), 0) ((1/5 : ℝ), 0) 10 = 0 := by
      have hgt := haversineDistance_example_gt_ten
      simp only [calculate_proximity_score]
      rw [if_pos (by push_cast; linarith)]
    simp only [calculate_final_score]
    rw [h0, round4_zero]

/-- Claim C8: For every list of reviews, `analyze_reviews` (a total function
in this model, so it cannot raise) returns a sequence of the same length
as its input in which every review carries a `sentiment_score`; with
loaded models, reviews with blank, empty, or absent text receive 0.5; and
when the models failed to load it still returns the same-length sequence
with every `sentiment_score` set to the defined default 0 instead of
propagating an error. -/
theorem analyze_reviews_contract (sa : SentimentAnalyzer) (rs : List Review) :
    (sa.analyze_reviews rs).length = rs.length ∧
    (∀ r' ∈ sa.analyze_reviews rs, ∃ s : ℚ, r'.sentiment_score = some s) ∧
    (sa.models = none → ∀ r' ∈ sa.analyze_reviews rs,
      r'.sentiment_score = some 0) ∧
    (∀ classify, sa.models = some classify →
      sa.analyze_reviews rs = rs.map (analyzeReview classify)) ∧
    (∀ classify : String → String → String, ∀ r : Review,
      (r.text = none ∨ ∃ t, r.text = some t ∧ (t = "" ∨ isBlank t)) →
        (analyzeReview classify r).sentiment_score = some (1/2)) := by
  refine ⟨analyze_reviews_length sa rs, ?_, ?_, ?_, ?_⟩
  · intro r' hr'
    rcases analyze_reviews_scores sa rs r' hr' with h | h | h
    · exact ⟨0, h⟩
    · exact ⟨1/2, h⟩
    · exact ⟨1, h⟩
  · intro hm r' hr'
    simp only [SentimentAnalyzer.analyze_reviews, hm] at hr'
    rcases List.mem_map.mp hr' with ⟨r, _, rfl⟩
    rfl
  · intro classify hm
    simp only [SentimentAnalyzer.analyze_reviews, hm]
  · intro classify r hblank
    cases ht : r.text with
    | none =>
      simp only [analyzeReview, ht]
    | some t =>
      rcases hblank with h | ⟨t', ht', hb⟩
      · rw [ht] at h
        exact absurd h (by simp)
      · rw [ht] at ht'
        injection ht' with htt
        subst htt
        simp only [analyzeReview, ht]
        rw [if_pos hb]

/-- Claim C8 witness: with failed model load, a review with absent text gets
the default score 0. -/
theorem analyze_reviews_contract_witness :
    sampleSA.models = none ∧
    ∀ r' ∈ sampleSA.analyze_reviews [(⟨none, none⟩ : Review)],
      r'.sentiment_score = some 0 :=
  ⟨rfl, (analyze_reviews_contract sampleSA [⟨none, none⟩]).2.2.1 rfl⟩

/-- Claim C9 (counterexample): the reviews field does not keep an unchanged
value.  A place with one non-blank review lacking a `sentiment_score`
appears in the output of `rank_places` with that review annotated
(`sentiment_score` written by `analyze_reviews` inside
`calculate_final_score`), so its `reviews` value differs from the
input's. -/
theorem reviews_value_changed_counterexample :
    (attachScoringDetails sampleUser sampleEmb sampleSA ["Cozy"]
        { name := "cafe", reviews := [⟨some "good", none⟩], budget := 1,
          coords := (0, 0), extra := [], scoring_details := none }) ∈
      rank_places sampleUser
        [{ name := "cafe", reviews := [⟨some "good", none⟩], budget := 1,
           coords := (0, 0), extra := [], scoring_details := none }]
        sampleEmb sampleSA ["Cozy"] ∧
    (attachScoringDetails sampleUser sampleEmb sampleSA ["Cozy"]
        { name := "cafe", reviews := [⟨some "good", none⟩], budget := 1,
          coords := (0, 0), extra := [], scoring_details := none }).reviews ≠
      [(⟨some "good", none⟩ : Review)] := by
  constructor
  · simp [rank_places, sortDesc, insertDesc]
  · show sampleSA.analyze_reviews [⟨some "good", none⟩] ≠
      [(⟨some "good", none⟩ : Review)]
    decide

/-- Claim C9 (amended): for every place record processed by `rank_places`,
the engine mutates the record in exactly two ways: it sets the
`scoring_details` field, and — through the sentiment analyzer invoked
inside `calculate_final_score` — the reviews list is annotated in place,
each review receiving a `sentiment_score` entry; the list keeps its
length and order and each review's text is unchanged, and every other
field of the input record (`name`, `budget`, `coords`, and any other
descriptive field) is present with an unchanged value on the
corresponding output record. -/
theorem rank_places_mutation_frame (ud : UserData)
    (places : List Place) (emb : String → List (String × ℚ))
    (sa : SentimentAnalyzer) (preds : List String) :
    ∀ q ∈ rank_places ud places emb sa preds, ∃ p ∈ places,
      q.name = p.name ∧ q.budget = p.budget ∧ q.coords = p.coords ∧
      q.extra = p.extra ∧
      q.reviews = sa.analyze_reviews p.reviews ∧
      q.reviews.length = p.reviews.length ∧
      q.reviews.map Review.text = p.reviews.map Review.text ∧
      (∀ r' ∈ q.reviews, ∃ s : ℚ, r'.sentiment_score = some s) ∧
      q.scoring_details = some (calculate_final_score p ud emb sa preds) := by
  intro q hq
  have hmem : q ∈ places.map (attachScoringDetails ud emb sa preds) :=
    (sortDesc_perm finalScoreKey
      (places.map (attachScoringDetails ud emb sa preds))).mem_iff.mp hq
  rcases List.mem_map.mp hmem with ⟨p, hp, rfl⟩
  refine ⟨p, hp, rfl, rfl, rfl, rfl, rfl, analyze_reviews_length sa p.reviews,
    analyze_reviews_texts sa p.reviews, ?_, rfl⟩
  intro r' hr'
  rcases analyze_reviews_scores sa p.reviews r' hr' with h | h | h
  · exact ⟨0, h⟩
  · exact ⟨1/2, h⟩
  · exact ⟨1, h⟩

/-- Claim C9 witness: the amended frame property instantiated on a
one-place list. -/
theorem rank_places_mutation_frame_witness :
    attachScoringDetails sampleUser sampleEmb sampleSA ["Cozy"] samplePlace ∈
        rank_places sampleUser [samplePlace] sampleEmb sampleSA ["Cozy"] ∧
    ∃ p ∈ [samplePlace],
      (attachScoringDetails sampleUser sampleEmb sampleSA ["Cozy"]
          samplePlace).name = p.name ∧
      (attachScoringDetails sampleUser sampleEmb sampleSA ["Cozy"]
          samplePlace).budget = p.budget ∧
      (attachScoringDetails sampleUser sampleEmb sampleSA ["Cozy"]
          samplePlace).coords = p.coords ∧
      (attachScoringDetails sampleUser sampleEmb sampleSA ["Cozy"]
          samplePlace).extra = p.extra ∧
      (attachScoringDetails sampleUser sampleEmb sampleSA ["Cozy"]
          samplePlace).reviews = sampleSA.analyze_reviews p.reviews ∧
      (attachScoringDetails sampleUser sampleEmb sampleSA ["Cozy"]
          samplePlace).reviews.length = p.reviews.length ∧
      (attachScoringDetails sampleUser sampleEmb sampleSA ["Cozy"]
          samplePlace).reviews.map Review.text = p.reviews.map Review.text ∧
      (∀ r' ∈ (attachScoringDetails sampleUser sampleEmb sampleSA ["Cozy"]
          samplePlace).reviews, ∃ s : ℚ, r'.sentiment_score = some s) ∧
      (attachScoringDetails sampleUser sampleEmb sampleSA ["Cozy"]
          samplePlace).scoring_details =
        some (calculate_final_score p sampleUser sampleEmb sampleSA ["Cozy"]) := by
  have hmem : attachScoringDetails sampleUser sampleEmb sampleSA ["Cozy"] samplePlace ∈
      rank_places sampleUser [samplePlace] sampleEmb sampleSA ["Cozy"] := by
    simp [rank_places, sortDesc, insertDesc]
  exact ⟨hmem, rank_places_mutation_frame sampleUser [samplePlace]
    sampleEmb sampleSA ["Cozy"] _ hmem⟩

/-- Claim C10: When the sentiment models loaded successfully, every
`sentiment_score` assigned by `analyze_reviews` is exactly one of 0, 0.5,
or 1: 1 for a review classified `LABEL_1` (positive), 0 for any other
classification (negative), and 0.5 for blank text or text whose language
is detected as neither English nor Arabic — no intermediate polarity value
is ever produced. -/
theorem loaded_scores_three_valued (classify : String → String → String)
    (rs : List Review) :
    (∀ r' ∈ SentimentAnalyzer.analyze_reviews ⟨some classify⟩ rs,
      r'.sentiment_score = some 0 ∨ r'.sentiment_score = some (1/2) ∨
        r'.sentiment_score = some 1) ∧
    (∀ r : Review, ∀ t, r.text = some t → ¬(t = "" ∨ isBlank t) →
      ((detect_language_by_character t = "en" ∨
          detect_language_by_character t = "ar") →
        (analyzeReview classify r).sentiment_score =
          some (if classify (detect_language_by_character t) t = "LABEL_1"
                then 1 else 0)) ∧
      (¬(detect_language_by_character t = "en" ∨
          detect_language_by_character t = "ar") →
        (analyzeReview classify r).sentiment_score = some (1/2))) := by
  constructor
  · exact analyze_reviews_scores ⟨some classify⟩ rs
  · intro r t ht hnb
    constructor
    · intro hlang
      simp only [analyzeReview, ht]
      rw [if_neg hnb, if_pos hlang]
    · intro hlang
      simp only [analyzeReview, ht]
      rw [if_neg hnb, if_neg hlang]

/-- Claim C10 witness: an all-Latin review is detected as English and gets
score 1 when the pipeline answers `LABEL_1`. -/
theorem loaded_scores_three_valued_witness :
    ¬(("good" : String) = "" ∨ isBlank "good") ∧
    (analyzeReview (fun _ _ => "LABEL_1")
        ⟨some "good", none⟩).sentiment_score =
      some (if (fun _ _ => "LABEL_1") (detect_language_by_character "good")
                "good" = "LABEL_1"
            then 1 else 0) := by
  have hnb : ¬(("good" : String) = "" ∨ isBlank "good") := by decide
  have hlang : detect_language_by_character "good" = "en" ∨
      detect_language_by_character "good" = "ar" := by
    left
    decide
  exact ⟨hnb, ((loaded_scores_three_valued (fun _ _ => "LABEL_1")
    [⟨some "good", none⟩]).2 ⟨some "good", none⟩ "good" rfl hnb).1 hlang⟩

/-- Claim C3: For every valid input (both budgets integers in 0–3,
non-negative user preference weights, attribute-scorer outputs that are
dict-like — duplicate-free keys — with values in [0, 1], duplicate-free
predefined attributes, arbitrary coordinates, and any sentiment-analyzer
state), each of the four component scores and the final score produced by
`calculate_final_score` lies in the closed interval [0, 1]. -/
theorem final_score_components_in_unit_interval (pd : Place) (ud : UserData)
    (emb : String → List (String × ℚ)) (sa : SentimentAnalyzer)
    (preds : List String)
    (hub1 : 0 ≤ ud.budget) (hub2 : ud.budget ≤ 3)
    (hpb1 : 0 ≤ pd.budget) (hpb2 : pd.budget ≤ 3)
    (hw : ∀ p ∈ ud.preferences, 0 ≤ p.2)
    (hemb : ∀ t, ((emb t).map Prod.fst).Nodup ∧ ∀ p ∈ emb t, 0 ≤ p.2 ∧ p.2 ≤ 1)
    (hpreds : preds.Nodup) :
    (0 ≤ (calculate_final_score pd ud emb sa preds).final_score ∧
      (calculate_final_score pd ud emb sa preds).final_score ≤ 1) ∧
    (0 ≤ (calculate_final_score pd ud emb sa preds).sentiment_score ∧
      (calculate_final_score pd ud emb sa preds).sentiment_score ≤ 1) ∧
    (0 ≤ (calculate_final_score pd ud emb sa preds).preference_score ∧
      (calculate_final_score pd ud emb sa preds).preference_score ≤ 1) ∧
    (0 ≤ (calculate_final_score pd ud emb sa preds).proximity_score ∧
      (calculate_final_score pd ud emb sa preds).proximity_score ≤ 1) ∧
    (0 ≤ (calculate_final_score pd ud emb sa preds).budget_score ∧
      (calculate_final_score pd ud emb sa preds).budget_score ≤ 1) := by
  obtain ⟨hs0, hs1⟩ := calculate_aggregated_sentiment_unit
    (sa.analyze_reviews pd.reviews) (analyze_reviews_getD_unit sa pd.reviews)
  obtain ⟨hp0, hp1⟩ := calculate_preference_score_nonneg_le_one ud.preferences
    (calculate_place_attribute_profile pd.reviews emb preds) preds hw hpreds
    (fun a => profile_value_unit pd.reviews emb preds a hemb)
  obtain ⟨hx0, hx1⟩ := calculate_proximity_score_unit ud.coords pd.coords 10
    (by norm_num)
  obtain ⟨hb0, hb1⟩ := calculate_budget_score_unit ud.budget pd.budget
    hub1 hub2 hpb1 hpb2
  have hs0' : (0 : ℝ) ≤
      (calculate_aggregated_sentiment (sa.analyze_reviews pd.reviews) : ℝ) := by
    exact_mod_cast hs0
  have hs1' :
      (calculate_aggregated_sentiment (sa.analyze_reviews pd.reviews) : ℝ) ≤ 1 := by
    exact_mod_cast hs1
  have hp0' : (0 : ℝ) ≤ (calculate_preference_score ud.preferences
      (calculate_place_attribute_profile pd.reviews emb preds) preds : ℝ) := by
    exact_mod_cast hp0
  have hp1' : (calculate_preference_score ud.preferences
      (calculate_place_attribute_profile pd.reviews emb preds) preds : ℝ) ≤ 1 := by
    exact_mod_cast hp1
  have hb0' : (0 : ℝ) ≤ (calculate_budget_score ud.budget pd.budget : ℝ) := by
    exact_mod_cast hb0
  have hb1' : (calculate_budget_score ud.budget pd.budget : ℝ) ≤ 1 := by
    exact_mod_cast hb1
  simp only [calculate_final_score]
  refine ⟨⟨round4_nonneg _ ?_, round4_le_one _ ?_⟩,
    ⟨round4_nonneg _ hs0', round4_le_one _ hs1'⟩,
    ⟨round4_nonneg _ hp0', round4_le_one _ hp1'⟩,
    ⟨round4_nonneg _ hx0, round4_le_one _ hx1⟩,
    ⟨round4_nonneg _ hb0', round4_le_one _ hb1'⟩⟩
  · linarith
  · linarith

/-- Claim C3 witness: the bounds instantiated at a concrete user and place. -/
theorem final_score_components_in_unit_interval_witness :
    (0 : ℤ) ≤ sampleUser.budget ∧
    0 ≤ (calculate_final_score samplePlace sampleUser sampleEmb sampleSA
          ["Cozy"]).final_score ∧
    (calculate_final_score samplePlace sampleUser sampleEmb sampleSA
        ["Cozy"]).final_score ≤ 1 := by
  have hemb : ∀ t, ((sampleEmb t).map Prod.fst).Nodup ∧
      ∀ p ∈ sampleEmb t, 0 ≤ p.2 ∧ p.2 ≤ 1 := by
    intro t
    constructor
    · simp [sampleEmb]
    · intro p hp
      simp only [sampleEmb, List.mem_singleton] at hp
      subst hp
      dsimp only
      constructor <;> split_ifs <;> norm_num
  have h := final_score_components_in_unit_interval samplePlace sampleUser
    sampleEmb sampleSA ["Cozy"] (by decide) (by decide) (by decide) (by decide)
    (by intro p hp; simp [sampleUser] at hp) hemb (by simp)
  exact ⟨by decide, h.1.1, h.1.2⟩

end PlaceRec
